import Mathlib

/-!
Verification of the conformal-RCA repository's calibration, transform and
serialization code against its specification.

The embedding idealizes IEEE floating point as exact rational arithmetic
(`ℚ`), the standard shallow-embedding convention; `x / 0 = 0` in `ℚ`,
which agrees with every code path exercised below because each division is
guarded in the source.
-/

namespace RCA

/-! ## Calibration Reporter: `compute_ece_for_segmentation`
(src/src/utils/data_transforms.py, lines 126–157)

A record is one predicted-confidence value paired with its real-agreement
indicator (`true_labels == 1` at that position).  The source iterates over
`zip(bin_lowers, bin_uppers)` built from `torch.linspace(0, 1, n_bins+1)`
and accumulates `|avg_confidence_in_bin - accuracy_in_bin| * prop_in_bin`
for every bin whose occupancy proportion is positive. -/

/-- One evaluation record: predicted confidence and real-agreement indicator. -/
abbrev Record := ℚ × Bool

/-- Embeds `torch.linspace(0, 1, n_bins + 1)`: the `n_bins + 1` bin boundaries. -/
def binBoundaries (nBins : ℕ) : List ℚ :=
  (List.range (nBins + 1)).map (fun (i : ℕ) => (i : ℚ) / (nBins : ℚ))

/-- Embeds `bin_boundaries[:-1]`. -/
def binLowers (nBins : ℕ) : List ℚ := (binBoundaries nBins).dropLast

/-- Embeds `bin_boundaries[1:]`. -/
def binUppers (nBins : ℕ) : List ℚ := (binBoundaries nBins).tail

/-- Embeds `in_bin = (prob_maps > bin_lower) & (prob_maps <= bin_upper)`
at a single value. -/
def inBin (p lo hi : ℚ) : Bool := decide (lo < p) && decide (p ≤ hi)

/-- Embeds one iteration of the loop body of `compute_ece_for_segmentation`:
the contribution of the bin `(lo, hi]` to the accumulated ECE.
`prop_in_bin` is `in_bin.float().mean()`, the fraction of all records in the
bin; the guard is `prop_in_bin.item() > 0`; `accuracy_in_bin` is
`(in_bin & (true_labels == 1)).float().sum() / in_bin.sum()`;
`avg_confidence_in_bin` is `prob_maps[in_bin].mean()`. -/
def binStep (records : List Record) (lo hi : ℚ) : ℚ :=
  let members := records.filter (fun r => inBin r.1 lo hi)
  let propInBin : ℚ := (members.length : ℚ) / (records.length : ℚ)
  if 0 < propInBin then
    let accuracyInBin : ℚ := ((members.filter (fun r => r.2)).length : ℚ) / (members.length : ℚ)
    let avgConfidenceInBin : ℚ := (members.map (fun r => r.1)).sum / (members.length : ℚ)
    |avgConfidenceInBin - accuracyInBin| * propInBin
  else 0

/-- Embeds `compute_ece_for_segmentation(prob_maps, true_labels, n_bins)`:
fold the loop body over `zip(bin_lowers, bin_uppers)` starting from `ece = 0.0`. -/
def compute_ece (records : List Record) (nBins : ℕ) : ℚ :=
  ((binLowers nBins).zip (binUppers nBins)).foldl
    (fun acc p => acc + binStep records p.1 p.2) 0

/-- Spec-side formulation of bucket membership: the records whose predicted
value lies in the `i`-th equal-width bucket `(i/n, (i+1)/n]`. -/
def bucketMembers (records : List Record) (nBins i : ℕ) : List Record :=
  records.filter (fun r => inBin r.1 ((i : ℚ) / (nBins : ℚ)) (((i : ℚ) + 1) / (nBins : ℚ)))

/-- Spec-side formulation of one bucket's ECE contribution: zero for an empty
bucket, otherwise |mean predicted − mean real-agreement indicator| weighted by
the fraction of all records falling in the bucket. -/
def bucketContribution (records : List Record) (nBins i : ℕ) : ℚ :=
  let members := bucketMembers records nBins i
  if members.length = 0 then 0
  else
    |(members.map (fun r => r.1)).sum / (members.length : ℚ) -
      ((members.filter (fun r => r.2)).length : ℚ) / (members.length : ℚ)| *
    ((members.length : ℚ) / (records.length : ℚ))

/-- Spec-side ECE: the sum of the per-bucket contributions over all buckets. -/
def specECE (records : List Record) (nBins : ℕ) : ℚ :=
  ((List.range nBins).map (bucketContribution records nBins)).sum

lemma foldl_add_eq_sum_map {α : Type} (f : α → ℚ) (l : List α) (a : ℚ) :
    l.foldl (fun acc x => acc + f x) a = a + (l.map f).sum := by
  induction l generalizing a with
  | nil => simp
  | cons x xs ih => simp [ih, add_assoc]

lemma zip_lowers_uppers (nBins : ℕ) :
    (binLowers nBins).zip (binUppers nBins) =
      (List.range nBins).map
        (fun (i : ℕ) => ((i : ℚ) / (nBins : ℚ), ((i : ℚ) + 1) / (nBins : ℚ))) := by
  have hlow : binLowers nBins =
      (List.range nBins).map (fun (i : ℕ) => (i : ℚ) / (nBins : ℚ)) := by
    simp [binLowers, binBoundaries, List.range_succ]
  have hup : binUppers nBins =
      (List.range nBins).map (fun (i : ℕ) => ((i : ℚ) + 1) / (nBins : ℚ)) := by
    rw [binUppers, binBoundaries, List.range_succ_eq_map, List.map_cons, List.tail_cons,
      List.map_map]
    refine List.map_congr_left ?_
    intro i _
    simp [Function.comp, Nat.succ_eq_add_one]
  rw [hlow, hup, List.zip_map']

lemma binStep_eq_bucketContribution (records : List Record) (nBins i : ℕ) :
    binStep records ((i : ℚ) / (nBins : ℚ)) (((i : ℚ) + 1) / (nBins : ℚ)) =
      bucketContribution records nBins i := by
  unfold binStep bucketContribution bucketMembers
  set members := records.filter
    (fun r => inBin r.1 ((i : ℚ) / (nBins : ℚ)) (((i : ℚ) + 1) / (nBins : ℚ))) with hm
  by_cases h : members.length = 0
  · have hprop : ((members.length : ℚ) / (records.length : ℚ)) = 0 := by
      simp [h]
    simp [h, hprop]
  · have hmem : 0 < members.length := Nat.pos_of_ne_zero h
    have hrec : 0 < records.length :=
      lt_of_lt_of_le hmem (by simpa [hm] using List.length_filter_le _ records)
    have hprop : 0 < ((members.length : ℚ) / (records.length : ℚ)) := by
      apply div_pos <;> exact_mod_cast ‹_›
    simp only [h, if_false, hprop, if_true]

/-- Refinement: the source's loop over `(bin_lower, bin_upper)` pairs computes
exactly the spec-side sum of per-bucket contributions. -/
lemma ece_eq_specECE (records : List Record) (nBins : ℕ) :
    compute_ece records nBins = specECE records nBins := by
  unfold compute_ece specECE
  rw [zip_lowers_uppers, foldl_add_eq_sum_map, zero_add, List.map_map]
  congr 1
  refine List.map_congr_left ?_
  intro i _
  exact binStep_eq_bucketContribution records nBins i

lemma countP_eq_one_of_unique {l : List ℕ} {pred : ℕ → Bool} {a : ℕ}
    (ha : a ∈ l) (hnd : l.Nodup) (h : ∀ b ∈ l, pred b = true ↔ b = a) :
    l.countP pred = 1 := by
  induction l with
  | nil => cases ha
  | cons x xs ih =>
    rcases List.nodup_cons.mp hnd with ⟨hx, hxs⟩
    by_cases hxa : x = a
    · subst hxa
      have hpx : pred x = true := (h x (List.mem_cons_self _ _)).mpr rfl
      have hzero : xs.countP pred = 0 := by
        rw [List.countP_eq_zero]
        intro b hb hpb
        exact hx ((h b (List.mem_cons_of_mem _ hb)).mp hpb ▸ hb)
      rw [List.countP_cons, hpx, hzero]
      simp
    · have hax : a ∈ xs := by
        rcases List.mem_cons.mp ha with h1 | h1
        · exact absurd h1.symm hxa
        · exact h1
      have hpx : pred x = false := by
        rcases Bool.eq_false_or_eq_true (pred x) with h1 | h1
        · exact absurd ((h x (List.mem_cons_self _ _)).mp h1) hxa
        · exact h1
      rw [List.countP_cons, hpx]
      simpa using ih hax hxs (fun b hb => h b (List.mem_cons_of_mem _ hb))

lemma inBin_iff_eq_ceil (nBins : ℕ) (hn : 1 ≤ nBins) (p : ℚ) (i : ℕ) :
    inBin p ((i : ℚ) / (nBins : ℚ)) (((i : ℚ) + 1) / (nBins : ℚ)) = true ↔
      (i : ℤ) = ⌈p * (nBins : ℚ)⌉ - 1 := by
  have hn0 : (0 : ℚ) < (nBins : ℚ) := by exact_mod_cast hn
  simp only [inBin, Bool.and_eq_true, decide_eq_true_eq]
  rw [div_lt_iff₀ hn0, le_div_iff₀ hn0]
  constructor
  · rintro ⟨h1, h2⟩
    have hlt : (i : ℤ) < ⌈p * (nBins : ℚ)⌉ := by
      rw [Int.lt_ceil]; exact_mod_cast h1
    have hle : ⌈p * (nBins : ℚ)⌉ ≤ (i : ℤ) + 1 := by
      rw [Int.ceil_le]; push_cast; exact h2
    omega
  · intro hi
    have hlt : (i : ℤ) < ⌈p * (nBins : ℚ)⌉ := by omega
    have hle : ⌈p * (nBins : ℚ)⌉ ≤ (i : ℤ) + 1 := by omega
    rw [Int.lt_ceil] at hlt
    rw [Int.ceil_le] at hle
    constructor
    · exact_mod_cast hlt
    · exact_mod_cast hle

/-- C1 (counterexample): the predicted value 0 lies in [0, 1] and yet falls in
none of the `n_bins = 15` default buckets: every bucket test
`(prob > lower) & (prob <= upper)` is strictly lower-exclusive, including the
first bucket whose lower boundary is 0, so 0 is not partitioned into any bucket. -/
theorem ece_zero_value_in_no_bin :
    ((0 : ℚ) ≤ 0 ∧ (0 : ℚ) ≤ 1) ∧
    (List.range 15).countP
      (fun (i : ℕ) => inBin 0 ((i : ℚ) / ((15 : ℕ) : ℚ)) (((i : ℚ) + 1) / ((15 : ℕ) : ℚ))) = 0 := by
  refine ⟨⟨le_refl 0, by norm_num⟩, ?_⟩
  refine List.countP_eq_zero.mpr ?_
  intro b _ hbin
  simp only [inBin, Bool.and_eq_true, decide_eq_true_eq] at hbin
  have h0 : (0 : ℚ) ≤ (b : ℚ) / ((15 : ℕ) : ℚ) := by positivity
  linarith [hbin.1]

/-- C1 (amended): `compute_ece` with `n_bins` bins forms `n_bins` equal-width
buckets over [0, 1] with half-open, upper-inclusive boundaries, so that every
predicted value in (0, 1] falls in exactly one bucket (a value of exactly 0
falls in no bucket); every bucket containing at least one value contributes
the absolute difference between the bucket's mean predicted confidence and its
mean real-agreement indicator, weighted by the fraction of all values falling
in that bucket; buckets with zero members contribute zero; the returned ECE is
the sum of these contributions. -/
theorem ece_partition_and_binned_sum (records : List Record) (nBins : ℕ)
    (hn : 1 ≤ nBins) (p : ℚ) (hp0 : 0 < p) (hp1 : p ≤ 1) :
    (List.range nBins).countP
        (fun (i : ℕ) => inBin p ((i : ℚ) / (nBins : ℚ)) (((i : ℚ) + 1) / (nBins : ℚ))) = 1
    ∧ compute_ece records nBins = specECE records nBins := by
  refine ⟨?_, ece_eq_specECE records nBins⟩
  have hn0 : (0 : ℚ) < (nBins : ℚ) := by exact_mod_cast hn
  set k : ℤ := ⌈p * (nBins : ℚ)⌉ with hk
  have hk1 : 1 ≤ k := by
    have : (0 : ℤ) < k := Int.ceil_pos.mpr (mul_pos hp0 hn0)
    omega
  have hkn : k ≤ (nBins : ℤ) := by
    rw [hk, Int.ceil_le]
    push_cast
    calc p * (nBins : ℚ) ≤ 1 * (nBins : ℚ) := by
          exact mul_le_mul_of_nonneg_right hp1 (le_of_lt hn0)
      _ = (nBins : ℚ) := one_mul _
  have hmem : (k - 1).toNat ∈ List.range nBins := by
    rw [List.mem_range]
    omega
  refine countP_eq_one_of_unique hmem (List.nodup_range nBins) ?_
  intro b hb
  rw [inBin_iff_eq_ceil nBins hn p b, ← hk]
  omega

/-- C1 (witness): instantiation at the record list [(1/2, true)] with the
default 15 bins and the predicted value 1/2. -/
theorem ece_partition_and_binned_sum_witness :
    (List.range 15).countP
        (fun (i : ℕ) =>
          inBin ((1 : ℚ)/2) ((i : ℚ) / ((15 : ℕ) : ℚ)) (((i : ℚ) + 1) / ((15 : ℕ) : ℚ))) = 1
    ∧ compute_ece [((1 : ℚ)/2, true)] 15 = specECE [((1 : ℚ)/2, true)] 15 :=
  ece_partition_and_binned_sum [((1 : ℚ)/2, true)] 15 (by norm_num) ((1 : ℚ)/2)
    (by norm_num) (by norm_num)

/-- C3: on a perfectly calibrated input — the predicted confidence equals the
real-agreement indicator on every record — `compute_ece` returns exactly 0. -/
theorem ece_perfectly_calibrated_eq_zero (records : List Record) (nBins : ℕ)
    (h : ∀ r ∈ records, r.1 = (if r.2 then (1 : ℚ) else 0)) :
    compute_ece records nBins = 0 := by
  rw [ece_eq_specECE]
  unfold specECE
  refine List.sum_eq_zero ?_
  intro x hx
  rcases List.mem_map.mp hx with ⟨i, hi, rfl⟩
  unfold bucketContribution bucketMembers
  set pred := fun (r : Record) =>
    inBin r.1 ((i : ℚ) / (nBins : ℚ)) (((i : ℚ) + 1) / (nBins : ℚ)) with hpred
  by_cases hlen : (records.filter pred).length = 0
  · simp only [hlen, if_true]
  · have hall : ∀ r ∈ records.filter pred, r.1 = 1 ∧ r.2 = true := by
      intro r hr
      rcases List.mem_filter.mp hr with ⟨hrmem, hrp⟩
      have hlo : (0 : ℚ) ≤ (i : ℚ) / (nBins : ℚ) := by positivity
      have hpos : 0 < r.1 := by
        have := hrp
        rw [hpred] at this
        simp only [inBin, Bool.and_eq_true, decide_eq_true_eq] at this
        exact lt_of_le_of_lt hlo this.1
      have hcal := h r hrmem
      rcases Bool.eq_false_or_eq_true r.2 with h2 | h2
      · rw [h2] at hcal
        simp only [if_pos rfl] at hcal
        exact ⟨hcal, h2⟩
      · rw [h2] at hcal
        simp at hcal
        rw [hcal] at hpos
        exact absurd hpos (lt_irrefl (0 : ℚ))
    have hsum : ((records.filter pred).map (fun r => r.1)).sum =
        ((records.filter pred).length : ℚ) := by
      have : ∀ q ∈ (records.filter pred).map (fun r => r.1), q = (1 : ℚ) := by
        intro q hq
        rcases List.mem_map.mp hq with ⟨r, hr, rfl⟩
        exact (hall r hr).1
      rw [List.eq_replicate_of_mem this]
      simp
    have hfilter : (records.filter pred).filter (fun r => r.2) = records.filter pred :=
      List.filter_eq_self.mpr (fun r hr => (hall r hr).2)
    simp [hlen, hfilter, hsum]

/-- C3 (witness): a concrete perfectly calibrated record list. -/
theorem ece_perfectly_calibrated_eq_zero_witness :
    compute_ece [((1 : ℚ), true), ((0 : ℚ), false)] 15 = 0 :=
  ece_perfectly_calibrated_eq_zero [((1 : ℚ), true), ((0 : ℚ), false)] 15 (by decide)

/-- C4: `compute_ece` is invariant under permutation of the input records:
the aggregation is order-independent. -/
theorem ece_perm_invariant (r₁ r₂ : List Record) (h : r₁.Perm r₂) (nBins : ℕ) :
    compute_ece r₁ nBins = compute_ece r₂ nBins := by
  rw [ece_eq_specECE, ece_eq_specECE]
  unfold specECE
  congr 1
  refine List.map_congr_left ?_
  intro i _
  unfold bucketContribution bucketMembers
  set pred := fun (r : Record) =>
    inBin r.1 ((i : ℚ) / (nBins : ℚ)) (((i : ℚ) + 1) / (nBins : ℚ)) with hpred
  have hperm : (r₁.filter pred).Perm (r₂.filter pred) := h.filter pred
  have hlen : (r₁.filter pred).length = (r₂.filter pred).length := hperm.length_eq
  have hsum : ((r₁.filter pred).map (fun r => r.1)).sum =
      ((r₂.filter pred).map (fun r => r.1)).sum :=
    (hperm.map (fun r => r.1)).sum_eq
  have hacc : ((r₁.filter pred).filter (fun r => r.2)).length =
      ((r₂.filter pred).filter (fun r => r.2)).length :=
    (hperm.filter (fun r => r.2)).length_eq
  have hrl : r₁.length = r₂.length := h.length_eq
  simp only [hlen, hsum, hacc, hrl]

/-- C4 (witness): a concrete transposition of two records. -/
theorem ece_perm_invariant_witness :
    compute_ece [((1 : ℚ)/2, true), ((1 : ℚ)/4, false)] 15 =
      compute_ece [((1 : ℚ)/4, false), ((1 : ℚ)/2, true)] 15 :=
  ece_perm_invariant [((1 : ℚ)/2, true), ((1 : ℚ)/4, false)]
    [((1 : ℚ)/4, false), ((1 : ℚ)/2, true)] (List.Perm.swap _ _ _) 15

/-! ## Transform chain: `Scale`, `OneHot`, `HUScale`
(src/src/utils/data_transforms.py, lines 44–123)

A sample is the Python dict passed through the transform chain: an ordered
association list from string keys to values.  A value is a 2-D numpy array
(image or mask), a 3-D numpy array (one-hot mask), or a non-array entry such
as a string identifier, which `OneHot`'s `isinstance` checks skip.  In-place
dict mutation is embedded as explicit state passing: each transform returns
the updated dict; a raised exception is `none`. -/

inductive Value where
  | arr2 : List (List ℚ) → Value
  | arr3 : List (List (List ℚ)) → Value
  | vstr : String → Value
deriving DecidableEq

/-- The `isinstance(value, np.ndarray)` test. -/
def Value.isArray : Value → Bool
  | .arr2 _ => true
  | .arr3 _ => true
  | .vstr _ => false

/-- All scalar elements of an array value, in row-major order (the order in
which numpy reductions such as `np.mean` traverse them). -/
def Value.elems : Value → List ℚ
  | .arr2 m => m.flatten
  | .arr3 t => (t.map List.flatten).flatten
  | .vstr _ => []

/-- Elementwise map over an array value, preserving its shape (numpy
broadcasting of a scalar operation). -/
def Value.emap (f : ℚ → ℚ) : Value → Value
  | .arr2 m => .arr2 (m.map (fun row => row.map f))
  | .arr3 t => .arr3 (t.map (fun p => p.map (fun row => row.map f)))
  | .vstr s => .vstr s

/-- A transform-chain sample: the shared Python dict, as an ordered
association list. -/
abbrev Sample := List (String × Value)

/-- Embeds Python dict indexing `sample[k]` (first matching key). -/
def getEntry : Sample → String → Option Value
  | [], _ => none
  | (k', v') :: rest, k => if k' = k then some v' else getEntry rest k

/-- Embeds Python dict assignment `sample[k] = v`: an existing key keeps its
position; a missing key is appended. -/
def setEntry : Sample → String → Value → Sample
  | [], k, v => [(k, v)]
  | (k', v') :: rest, k, v =>
    if k' = k then (k, v) :: rest else (k', v') :: setEntry rest k v

/-- Embeds the per-entry loop `for key, value in sample.items(): ...` with an
exception aborting the traversal (`none`). -/
def mapEntriesM (f : String × Value → Option (String × Value)) : Sample → Option Sample
  | [] => some []
  | e :: es =>
    match f e, mapEntriesM f es with
    | some v, some rest => some (v :: rest)
    | _, _ => none

/-- Embeds `np.mean`. -/
def npMean (l : List ℚ) : ℚ := l.sum / (l.length : ℚ)

/-- Embeds `np.var`, the square of `np.std`; `np.std(img) > 0` iff
`npVar img > 0`. -/
def npVar (l : List ℚ) : ℚ := npMean (l.map (fun x => (x - npMean l) ^ 2))

/-- Embeds `np.min` over a flattened nonempty array (0 on the empty array,
never reached through a guarded call site). -/
def npMin : List ℚ → ℚ
  | [] => 0
  | x :: xs => xs.foldl min x

/-- Embeds `np.max`. -/
def npMax : List ℚ → ℚ
  | [] => 0
  | x :: xs => xs.foldl max x

/-- Embeds `np.clip(x, lo, hi)` at a scalar. -/
def clipQ (x lo hi : ℚ) : ℚ := max lo (min x hi)

/-- Embeds `.astype(np.uint8)` at a scalar: truncation toward zero, then the
8-bit wrap.  Every call site below feeds it a nonnegative value, on which
truncation toward zero coincides with the floor. -/
def toUint8 (x : ℚ) : ℚ := (((if 0 ≤ x then ⌊x⌋ else ⌈x⌉) % 256 : ℤ) : ℚ)

/-- Embeds `value.astype(np.int64)` at a scalar: truncation toward zero. -/
def intTrunc (x : ℚ) : ℤ := if 0 ≤ x then ⌊x⌋ else ⌈x⌉

/-- Embeds the `std > 0` branch of `Scale.__call__`, with the positive divisor
`s` standing for `np.std(img)`:
`z = (img - mean) / s`, then `(z - z.min()) / (z.max() - z.min()) * 255`,
`np.clip(..., 0, 255)`, `.astype(np.uint8)`.  `np.std` is an irrational square
root, out of reach of an exact rational embedding; `scaleValue_indep` below
proves the result identical for every positive divisor, so instantiating `s`
with the (rational) variance computes exactly what dividing by the standard
deviation computes. -/
def scaleValue (s : ℚ) (v : Value) : Value :=
  let l := v.elems
  let m := npMean l
  let z := l.map (fun x => (x - m) / s)
  v.emap (fun x => toUint8 (clipQ (((x - m) / s - npMin z) / (npMax z - npMin z) * 255) 0 255))

/-- Embeds `Scale.__call__` (lines 44–59): read `sample['image']` (a missing
key or a non-array value raises), normalize when `std > 0`, write the result
back into the same dict. -/
def scaleCall (sample : Sample) : Option Sample :=
  match getEntry sample "image" with
  | none => none
  | some (.vstr _) => none
  | some img =>
    let scaled := if 0 < npVar img.elems then scaleValue (npVar img.elems) img else img
    some (setEntry sample "image" scaled)

/-- Embeds `np.quantile(l, q)` with the default linear interpolation. -/
def npQuantile (l : List ℚ) (q : ℚ) : ℚ :=
  if l.length = 0 then 0
  else
    let s := List.insertionSort (· ≤ ·) l
    let pos : ℚ := q * ((l.length : ℚ) - 1)
    let i : ℕ := ⌊pos⌋.toNat
    let a := s.getD i 0
    let b := s.getD (min (i + 1) (l.length - 1)) 0
    a + (pos - (⌊pos⌋ : ℚ)) * (b - a)

/-- Embeds `HUScale.__call__` (lines 106–123): clip `sample['image']` to its
[minQ, maxQ] quantile range, rescale to [0, 255], cast to uint8, write back. -/
def huScaleCall (minQ maxQ : ℚ) (sample : Sample) : Option Sample :=
  match getEntry sample "image" with
  | none => none
  | some (.vstr _) => none
  | some img =>
    let huMin := npQuantile img.elems minQ
    let huMax := npQuantile img.elems maxQ
    some (setEntry sample "image"
      (img.emap (fun x => toUint8 ((clipQ x huMin huMax - huMin) / (huMax - huMin) * 255))))

/-- Embeds `np.eye(c)[v]` row indexing: a negative index wraps once; an index
outside [-c, c) raises `IndexError` (`none`). -/
def eyeRow (c : ℕ) (v : ℤ) : Option (List ℚ) :=
  let w : ℤ := if v < 0 then v + (c : ℤ) else v
  if 0 ≤ w ∧ w < (c : ℤ) then
    some ((List.range c).map (fun (j : ℕ) => if (j : ℤ) = w then (1 : ℚ) else 0))
  else none

/-- Embeds `np.transpose(a, (2, 0, 1))` on an (H, W, C) nested list whose last
dimension has length `c`. -/
def transpose201 (c : ℕ) (a : List (List (List ℚ))) : List (List (List ℚ)) :=
  (List.range c).map (fun k => a.map (fun row => row.map (fun vec => vec.getD k 0)))

/-- Embeds elementwise application of a fallible operation over a list
(numpy advanced indexing, which raises on the first bad index). -/
def seqMapM {α β : Type} (f : α → Option β) : List α → Option (List β)
  | [] => some []
  | x :: xs =>
    match f x, seqMapM f xs with
    | some y, some ys => some (y :: ys)
    | _, _ => none

/-- Embeds the per-entry body of `OneHot.__call__` (lines 79–104): the
`'image'` key and non-array values are left untouched; `n_classes == 1`
divides the mask by its maximum; otherwise a 2-D mask is cast to int64,
one-hot encoded via `np.eye(n_classes + 1)[value]`, transposed to
(channels, H, W) and cast back to uint8.  A 3-D mask in the `n_classes != 1`
branch makes `np.transpose(..., (2, 0, 1))` raise (`none`). -/
def oneHotValue (n : ℕ) (k : String) (v : Value) : Option Value :=
  if k = "image" then some v
  else
    match v with
    | .vstr s => some (.vstr s)
    | .arr2 rows =>
      if n = 1 then some ((Value.arr2 rows).emap (fun x => x / npMax (Value.arr2 rows).elems))
      else
        match seqMapM (fun row => seqMapM (fun x => eyeRow (n + 1) (intTrunc x)) row) rows with
        | none => none
        | some hot =>
          some (.arr3 ((transpose201 (n + 1) hot).map (fun p => p.map (fun r => r.map toUint8))))
    | .arr3 t =>
      if n = 1 then some ((Value.arr3 t).emap (fun x => x / npMax (Value.arr3 t).elems))
      else none

/-- Embeds `OneHot.__call__`: the per-entry body folded over the dict. -/
def oneHotCall (n : ℕ) (sample : Sample) : Option Sample :=
  mapEntriesM (fun e => (oneHotValue n e.1 e.2).map (fun v' => (e.1, v'))) sample

lemma getEntry_setEntry_self (s : Sample) (k : String) (v : Value) :
    getEntry (setEntry s k v) k = some v := by
  induction s with
  | nil => simp [setEntry, getEntry]
  | cons e es ih =>
    obtain ⟨k₀, v₀⟩ := e
    by_cases h0 : k₀ = k
    · simp [setEntry, getEntry, h0]
    · simp [setEntry, getEntry, h0, ih]

lemma getEntry_setEntry_ne (s : Sample) (k k' : String) (v : Value) (h : k' ≠ k) :
    getEntry (setEntry s k v) k' = getEntry s k' := by
  induction s with
  | nil => simp [setEntry, getEntry, Ne.symm h]
  | cons e es ih =>
    obtain ⟨k₀, v₀⟩ := e
    by_cases h0 : k₀ = k
    · simp [setEntry, getEntry, h0, Ne.symm h]
    · simp [setEntry, getEntry, h0, ih]

lemma setEntry_keys (s : Sample) (k : String) (v : Value)
    (h : getEntry s k ≠ none) :
    (setEntry s k v).map Prod.fst = s.map Prod.fst := by
  induction s with
  | nil => simp [getEntry] at h
  | cons e es ih =>
    obtain ⟨k₀, v₀⟩ := e
    by_cases h0 : k₀ = k
    · simp [setEntry, h0]
    · rw [getEntry, if_neg h0] at h
      simp [setEntry, h0, ih h]

lemma oneHotCall_frame (n : ℕ) (s s' : Sample) (h : oneHotCall n s = some s') :
    s'.map Prod.fst = s.map Prod.fst ∧ getEntry s' "image" = getEntry s "image" := by
  induction s generalizing s' with
  | nil =>
    rw [oneHotCall, mapEntriesM] at h
    cases h
    simp
  | cons e es ih =>
    obtain ⟨k₀, v₀⟩ := e
    rw [oneHotCall, mapEntriesM] at h
    cases hov : oneHotValue n k₀ v₀ with
    | none => rw [hov] at h; simp at h
    | some w =>
      cases hes : mapEntriesM (fun e => (oneHotValue n e.1 e.2).map (fun v' => (e.1, v'))) es with
      | none => rw [hov, hes] at h; simp at h
      | some rest =>
        rw [hov, hes] at h
        simp only [Option.map_some] at h
        cases h
        have hrec := ih rest (by rw [oneHotCall]; exact hes)
        constructor
        · simp [hrec.1]
        · by_cases hk : k₀ = "image"
          · have hw : w = v₀ := by
              rw [oneHotValue.eq_def, if_pos hk] at hov
              exact (Option.some_inj.mp hov).symm
            simp [getEntry, hk, hw]
          · simp [getEntry, hk, hrec.2]

/-- C6: each of the transforms `Scale`, `OneHot` and `HUScale` mutates the
shared sample dict in place and returns that same dict — embedded as: on
success the returned dict holds exactly the input's keys in the input's
order — and moreover `Scale` and `HUScale` change only the `'image'` entry,
leaving every other entry unchanged, while `OneHot` leaves the `'image'`
entry unchanged. -/
theorem transforms_inplace_frame (sample : Sample) :
    (∀ s', scaleCall sample = some s' →
      s'.map Prod.fst = sample.map Prod.fst ∧
      ∀ k, k ≠ "image" → getEntry s' k = getEntry sample k) ∧
    (∀ minQ maxQ s', huScaleCall minQ maxQ sample = some s' →
      s'.map Prod.fst = sample.map Prod.fst ∧
      ∀ k, k ≠ "image" → getEntry s' k = getEntry sample k) ∧
    (∀ n s', oneHotCall n sample = some s' →
      s'.map Prod.fst = sample.map Prod.fst ∧
      getEntry s' "image" = getEntry sample "image") := by
  refine ⟨?_, ?_, ?_⟩
  · intro s' h
    rw [scaleCall] at h
    cases himg : getEntry sample "image" with
    | none => rw [himg] at h; cases h
    | some img =>
      rw [himg] at h
      cases img with
      | vstr s => cases h
      | arr2 m =>
        simp only [Option.some_inj] at h
        subst h
        exact ⟨setEntry_keys _ _ _ (by rw [himg]; exact Option.noConfusion),
          fun k hk => getEntry_setEntry_ne _ _ _ _ hk⟩
      | arr3 t =>
        simp only [Option.some_inj] at h
        subst h
        exact ⟨setEntry_keys _ _ _ (by rw [himg]; exact Option.noConfusion),
          fun k hk => getEntry_setEntry_ne _ _ _ _ hk⟩
  · intro minQ maxQ s' h
    rw [huScaleCall] at h
    cases himg : getEntry sample "image" with
    | none => rw [himg] at h; cases h
    | some img =>
      rw [himg] at h
      cases img with
      | vstr s => cases h
      | arr2 m =>
        simp only [Option.some_inj] at h
        subst h
        exact ⟨setEntry_keys _ _ _ (by rw [himg]; exact Option.noConfusion),
          fun k hk => getEntry_setEntry_ne _ _ _ _ hk⟩
      | arr3 t =>
        simp only [Option.some_inj] at h
        subst h
        exact ⟨setEntry_keys _ _ _ (by rw [himg]; exact Option.noConfusion),
          fun k hk => getEntry_setEntry_ne _ _ _ _ hk⟩
  · intro n s' h
    exact oneHotCall_frame n sample s' h

/-- C6 (witness): a singleton-image sample on which all three transforms act
as the identity, so each call's success and frame are concrete. -/
theorem transforms_inplace_frame_witness :
    (([("image", Value.arr2 [[0]])] : Sample).map Prod.fst =
        ([("image", Value.arr2 [[0]])] : Sample).map Prod.fst ∧
      ∀ k, k ≠ "image" →
        getEntry [("image", Value.arr2 [[0]])] k = getEntry [("image", Value.arr2 [[0]])] k) ∧
    (([("image", Value.arr2 [[0]])] : Sample).map Prod.fst =
        ([("image", Value.arr2 [[0]])] : Sample).map Prod.fst ∧
      ∀ k, k ≠ "image" →
        getEntry [("image", Value.arr2 [[0]])] k = getEntry [("image", Value.arr2 [[0]])] k) ∧
    (([("image", Value.arr2 [[0]])] : Sample).map Prod.fst =
        ([("image", Value.arr2 [[0]])] : Sample).map Prod.fst ∧
      getEntry [("image", Value.arr2 [[0]])] "image" =
        getEntry [("image", Value.arr2 [[0]])] "image") := by
  refine ⟨(transforms_inplace_frame _).1 _ ?_,
    ((transforms_inplace_frame _).2.1 : _) 0 1 _ ?_,
    (transforms_inplace_frame _).2.2 2 _ ?_⟩
  · norm_num [scaleCall, getEntry, setEntry, npVar, npMean, Value.elems]
  · norm_num [huScaleCall, getEntry, setEntry, npQuantile, List.insertionSort,
      List.orderedInsert, Value.elems, Value.emap, clipQ, toUint8, npMean]
  · norm_num [oneHotCall, mapEntriesM, oneHotValue]

lemma emap_elems (f : ℚ → ℚ) (v : Value) : (v.emap f).elems = v.elems.map f := by
  cases v with
  | arr2 m => simp [Value.emap, Value.elems, List.map_flatten]
  | arr3 t => simp [Value.emap, Value.elems, List.map_flatten, List.map_map, Function.comp_def]
  | vstr s => simp [Value.emap, Value.elems]

lemma foldl_min_div (xs : List ℚ) (a s : ℚ) (hs : 0 < s) :
    (xs.map (fun y => y / s)).foldl min (a / s) = xs.foldl min a / s := by
  induction xs generalizing a with
  | nil => rfl
  | cons x t ih =>
    simp only [List.map_cons, List.foldl_cons]
    rw [min_div_div_right (le_of_lt hs)]
    exact ih (min a x)

lemma foldl_max_div (xs : List ℚ) (a s : ℚ) (hs : 0 < s) :
    (xs.map (fun y => y / s)).foldl max (a / s) = xs.foldl max a / s := by
  induction xs generalizing a with
  | nil => rfl
  | cons x t ih =>
    simp only [List.map_cons, List.foldl_cons]
    rw [max_div_div_right (le_of_lt hs)]
    exact ih (max a x)

lemma npMin_map_div (l : List ℚ) (s : ℚ) (hs : 0 < s) :
    npMin (l.map (fun y => y / s)) = npMin l / s := by
  cases l with
  | nil => simp [npMin]
  | cons x xs =>
    simp only [npMin, List.map_cons]
    exact foldl_min_div xs x s hs

lemma npMax_map_div (l : List ℚ) (s : ℚ) (hs : 0 < s) :
    npMax (l.map (fun y => y / s)) = npMax l / s := by
  cases l with
  | nil => simp [npMax]
  | cons x xs =>
    simp only [npMax, List.map_cons]
    exact foldl_max_div xs x s hs

lemma div_div_div_eq (p q s : ℚ) (hs : s ≠ 0) : (p / s) / (q / s) = p / q := by
  rcases eq_or_ne q 0 with rfl | hq
  · simp
  · field_simp

/-- Any positive stand-in for `np.std(img)` yields the same scaled image: the
divisor cancels in the min–max normalization, so dividing by the variance (as
`scaleValue` is instantiated) computes exactly what dividing by the irrational
standard deviation computes. -/
lemma scaleValue_indep (v : Value) (s t : ℚ) (hs : 0 < s) (ht : 0 < t) :
    scaleValue s v = scaleValue t v := by
  simp only [scaleValue]
  have key : ∀ u x : ℚ, 0 < u →
      ((x - npMean v.elems) / u -
          npMin (v.elems.map (fun y => (y - npMean v.elems) / u))) /
        (npMax (v.elems.map (fun y => (y - npMean v.elems) / u)) -
          npMin (v.elems.map (fun y => (y - npMean v.elems) / u))) =
      (x - npMean v.elems - npMin (v.elems.map (fun y => y - npMean v.elems))) /
        (npMax (v.elems.map (fun y => y - npMean v.elems)) -
          npMin (v.elems.map (fun y => y - npMean v.elems))) := by
    intro u x hu
    have hm : v.elems.map (fun y => (y - npMean v.elems) / u) =
        (v.elems.map (fun y => y - npMean v.elems)).map (fun y => y / u) := by
      rw [List.map_map]
      rfl
    rw [hm, npMin_map_div _ _ hu, npMax_map_div _ _ hu, div_sub_div_same, div_sub_div_same]
    exact div_div_div_eq _ _ _ (ne_of_gt hu)
  congr 1
  funext x
  rw [key s x hs, key t x ht]

lemma toUint8_clip_mem (y : ℚ) : ∃ k : ℕ, k ≤ 255 ∧ toUint8 (clipQ y 0 255) = (k : ℚ) := by
  have h0 : (0 : ℚ) ≤ clipQ y 0 255 := le_max_left _ _
  have h255 : clipQ y 0 255 ≤ 255 := max_le (by norm_num) (min_le_right _ _)
  have hf0 : (0 : ℤ) ≤ ⌊clipQ y 0 255⌋ := Int.floor_nonneg.mpr h0
  have hf255 : ⌊clipQ y 0 255⌋ ≤ 255 := by
    have h := Int.floor_le_floor h255
    simpa using h
  refine ⟨⌊clipQ y 0 255⌋.toNat, by omega, ?_⟩
  rw [toUint8, if_pos h0, Int.emod_eq_of_lt hf0 (by omega)]
  have hcast : ((⌊clipQ y 0 255⌋.toNat : ℤ) : ℚ) = ((⌊clipQ y 0 255⌋ : ℤ) : ℚ) := by
    exact_mod_cast congrArg (fun z => ((z : ℤ) : ℚ)) (Int.toNat_of_nonneg hf0)
  exact_mod_cast hcast.symm

/-- C7: `Scale.__call__` is total on any sample carrying an array image: when
the image's standard deviation is zero (equivalently, its variance is zero)
the image is written back unchanged and neither normalizing division is
reached, and when the standard deviation is positive every value of the output
image is a uint8: a natural number at most 255. -/
theorem scale_total_uint8 (sample : Sample) (img : Value)
    (himg : getEntry sample "image" = some img) (harr : img.isArray = true) :
    (npVar img.elems = 0 →
      ∃ s', scaleCall sample = some s' ∧ getEntry s' "image" = some img) ∧
    (0 < npVar img.elems →
      ∃ s', scaleCall sample = some s' ∧
        ∃ v, getEntry s' "image" = some v ∧
          ∀ x ∈ v.elems, ∃ k : ℕ, k ≤ 255 ∧ x = (k : ℚ)) := by
  have hcall : scaleCall sample = some (setEntry sample "image"
      (if 0 < npVar img.elems then scaleValue (npVar img.elems) img else img)) := by
    cases img with
    | vstr s => simp [Value.isArray] at harr
    | arr2 m => rw [scaleCall.eq_def, himg]
    | arr3 t => rw [scaleCall.eq_def, himg]
  constructor
  · intro h0
    refine ⟨_, hcall, ?_⟩
    rw [if_neg (by rw [h0]; exact lt_irrefl 0)]
    exact getEntry_setEntry_self _ _ _
  · intro hpos
    refine ⟨_, hcall, scaleValue (npVar img.elems) img, ?_, ?_⟩
    · rw [if_pos hpos]
      exact getEntry_setEntry_self _ _ _
    · intro x hx
      rw [scaleValue] at hx
      rw [emap_elems] at hx
      rcases List.mem_map.mp hx with ⟨y, _, rfl⟩
      exact toUint8_clip_mem _

/-- C7 (witness): a constant singleton image has variance zero and is returned
unchanged. -/
theorem scale_total_uint8_witness :
    ∃ s', scaleCall [("image", Value.arr2 [[(0 : ℚ)]])] = some s' ∧
      getEntry s' "image" = some (Value.arr2 [[(0 : ℚ)]]) :=
  (scale_total_uint8 [("image", Value.arr2 [[(0 : ℚ)]])] (Value.arr2 [[(0 : ℚ)]])
    (by simp [getEntry]) rfl).1 (by norm_num [npVar, npMean, Value.elems])

lemma getD_map {α β : Type} (f : α → β) (l : List α) (i : ℕ) (d : β) (d' : α)
    (h : i < l.length) : (l.map f).getD i d = f (l.getD i d') := by
  induction l generalizing i with
  | nil => simp at h
  | cons x xs ih =>
    cases i with
    | zero => simp
    | succ j =>
      simp only [List.map_cons, List.getD_cons_succ]
      exact ih j (by simpa using h)

lemma getD_range (m i : ℕ) (h : i < m) : (List.range m).getD i 0 = i := by
  rw [List.getD_eq_getElem _ _ (by simpa using h)]
  exact List.getElem_range _ _

lemma getD_zero_one (vec : List ℚ) (c : ℕ) (h : ∀ e ∈ vec, e = 0 ∨ e = 1) :
    vec.getD c 0 = 0 ∨ vec.getD c 0 = 1 := by
  by_cases hc : c < vec.length
  · refine h _ ?_
    rw [List.getD_eq_getElem _ _ hc]
    exact List.getElem_mem hc
  · left
    rw [List.getD_eq_default _ _ (by omega)]

lemma sum_indicator_range (m : ℕ) (w : ℤ) (h0 : 0 ≤ w) (h : w < (m : ℤ)) :
    ((List.range m).map (fun (c : ℕ) => if (c : ℤ) = w then (1 : ℚ) else 0)).sum = 1 := by
  induction m with
  | zero => omega
  | succ m ih =>
    rw [List.range_succ, List.map_append, List.sum_append]
    by_cases hw : (m : ℤ) = w
    · have hz : ((List.range m).map (fun (c : ℕ) => if (c : ℤ) = w then (1 : ℚ) else 0)).sum
          = 0 := by
        apply List.sum_eq_zero
        intro x hx
        rcases List.mem_map.mp hx with ⟨c, hc, rfl⟩
        have hcm : c < m := List.mem_range.mp hc
        rw [if_neg (by omega)]
      simp [hz, hw]
    · have hwm : w < (m : ℤ) := by omega
      rw [ih hwm]
      simp [hw]

lemma toUint8_zero : toUint8 0 = 0 := by norm_num [toUint8]

lemma toUint8_one : toUint8 1 = 1 := by norm_num [toUint8]

lemma eyeRow_of_nonneg (c : ℕ) (w : ℤ) (h0 : 0 ≤ w) (hc : w < (c : ℤ)) :
    eyeRow c w =
      some ((List.range c).map (fun (j : ℕ) => if (j : ℤ) = w then (1 : ℚ) else 0)) := by
  simp only [eyeRow]
  rw [if_neg (by omega : ¬ w < 0), if_pos ⟨h0, hc⟩]

lemma intTrunc_natCast (v : ℕ) : intTrunc ((v : ℕ) : ℚ) = (v : ℤ) := by
  rw [intTrunc, if_pos (by positivity)]
  exact Int.floor_natCast v

lemma seqMapM_eq_map {α β : Type} (f : α → Option β) (g : α → β) (l : List α)
    (h : ∀ x ∈ l, f x = some (g x)) : seqMapM f l = some (l.map g) := by
  induction l with
  | nil => rfl
  | cons x xs ih =>
    rw [seqMapM, h x (List.mem_cons_self _ _),
      ih (fun y hy => h y (List.mem_cons_of_mem _ hy))]
    rfl

/-- The row `np.eye(n+1)[int(x)]` produced for one mask scalar. -/
def hotRow (n : ℕ) (x : ℚ) : List ℚ :=
  (List.range (n + 1)).map (fun (j : ℕ) => if (j : ℤ) = intTrunc x then (1 : ℚ) else 0)

lemma hotRow_zero_one (n : ℕ) (x : ℚ) : ∀ e ∈ hotRow n x, e = 0 ∨ e = 1 := by
  intro e he
  rcases List.mem_map.mp he with ⟨j, _, rfl⟩
  by_cases hj : (j : ℤ) = intTrunc x
  · right; rw [if_pos hj]
  · left; rw [if_neg hj]

lemma hotRow_length (n : ℕ) (x : ℚ) : (hotRow n x).length = n + 1 := by
  simp [hotRow]

lemma oneHotValue_mask (n : ℕ) (hn : 2 ≤ n) (k : String) (hk : ¬ k = "image")
    (rows : List (List ℚ)) (H W : ℕ)
    (hH : rows.length = H) (hW : ∀ row ∈ rows, row.length = W)
    (hval : ∀ row ∈ rows, ∀ x ∈ row, ∃ v : ℕ, v ≤ n ∧ x = ((v : ℕ) : ℚ)) :
    ∃ t, oneHotValue n k (Value.arr2 rows) = some (Value.arr3 t) ∧
      t.length = n + 1 ∧
      (∀ p ∈ t, p.length = H ∧ ∀ row ∈ p, row.length = W) ∧
      (∀ p ∈ t, ∀ row ∈ p, ∀ x ∈ row, x = 0 ∨ x = 1) ∧
      (∀ i j, i < H → j < W →
        ((List.range (n + 1)).map
          (fun c => ((t.getD c []).getD i []).getD j 0)).sum = 1) := by
  have hrowm : ∀ row ∈ rows,
      seqMapM (fun x => eyeRow (n + 1) (intTrunc x)) row = some (row.map (hotRow n)) := by
    intro row hrow
    apply seqMapM_eq_map
    intro x hx
    obtain ⟨v, hv, rfl⟩ := hval row hrow x hx
    rw [hotRow]
    rw [intTrunc_natCast]
    exact eyeRow_of_nonneg (n + 1) (v : ℤ) (Int.natCast_nonneg v)
      (by exact_mod_cast Nat.lt_succ_of_le hv)
  have houter : seqMapM (fun row => seqMapM (fun x => eyeRow (n + 1) (intTrunc x)) row) rows
      = some (rows.map (fun row => row.map (hotRow n))) :=
    seqMapM_eq_map _ _ _ hrowm
  have hcall : oneHotValue n k (Value.arr2 rows) =
      some (Value.arr3
        ((transpose201 (n + 1) (rows.map (fun row => row.map (hotRow n)))).map
          (fun p => p.map (fun r => r.map toUint8)))) := by
    rw [oneHotValue.eq_def, if_neg hk]
    dsimp only
    rw [if_neg (by omega : ¬ n = 1), houter]
  refine ⟨_, hcall, ?_, ?_, ?_, ?_⟩
  · simp [transpose201]
  · intro p hp
    rw [transpose201, List.map_map] at hp
    rcases List.mem_map.mp hp with ⟨c, _, rfl⟩
    simp only [Function.comp_apply, List.map_map]
    constructor
    · simp [hH]
    · intro row hrow
      rcases List.mem_map.mp hrow with ⟨rrow, hrrow, rfl⟩
      simp [hW rrow hrrow]
  · intro p hp row hrow x hx
    rw [transpose201, List.map_map] at hp
    rcases List.mem_map.mp hp with ⟨c, _, rfl⟩
    simp only [Function.comp_apply, List.map_map] at hrow
    rcases List.mem_map.mp hrow with ⟨rrow, hrrow, rfl⟩
    simp only [Function.comp_apply, List.map_map] at hx
    rcases List.mem_map.mp hx with ⟨y, _, rfl⟩
    simp only [Function.comp_apply]
    rcases getD_zero_one (hotRow n y) c (hotRow_zero_one n y) with h | h
    · left
      rw [h, toUint8_zero]
    · right
      rw [h, toUint8_one]
  · intro i j hi hj
    have hi' : i < rows.length := by omega
    have hrrow_mem : rows.getD i [] ∈ rows := by
      rw [List.getD_eq_getElem _ _ hi']
      exact List.getElem_mem hi'
    have hrlen : (rows.getD i []).length = W := hW _ hrrow_mem
    have hj' : j < (rows.getD i []).length := by omega
    have hy_mem : (rows.getD i []).getD j 0 ∈ rows.getD i [] := by
      rw [List.getD_eq_getElem _ _ hj']
      exact List.getElem_mem hj'
    obtain ⟨v, hv, hyv⟩ := hval _ hrrow_mem _ hy_mem
    have hacc : ∀ c ∈ List.range (n + 1),
        ((((transpose201 (n + 1) (rows.map (fun row => row.map (hotRow n)))).map
            (fun p => p.map (fun r => r.map toUint8))).getD c []).getD i []).getD j 0
          = if (c : ℤ) = (v : ℤ) then (1 : ℚ) else 0 := by
      intro c hc
      have hc' : c < n + 1 := List.mem_range.mp hc
      rw [transpose201, List.map_map,
        getD_map _ _ c _ 0 (by simpa using hc'), getD_range _ _ hc']
      simp only [Function.comp_apply, List.map_map]
      rw [getD_map _ _ i _ ([] : List ℚ) hi']
      simp only [Function.comp_apply, List.map_map]
      rw [getD_map _ _ j _ (0 : ℚ) hj']
      simp only [Function.comp_apply]
      rw [hyv, hotRow, intTrunc_natCast,
        getD_map _ _ c _ 0 (by simpa using hc'), getD_range _ _ hc']
      by_cases hcv : (c : ℤ) = (v : ℤ)
      · rw [if_pos hcv]
        exact toUint8_one
      · rw [if_neg hcv]
        exact toUint8_zero
    rw [List.map_congr_left hacc]
    exact sum_indicator_range (n + 1) (v : ℤ) (Int.natCast_nonneg v)
      (by exact_mod_cast Nat.lt_succ_of_le hv)

/-- C8: for `n_classes ≥ 2` and a sample whose non-`'image'` entries are 2-D
integer masks with values in [0, n_classes], `OneHot.__call__` succeeds and
replaces each such mask with a (n_classes + 1, H, W) one-hot array: every
entry is 0 or 1and at every pixel the channel values sum to exactly 1. -/
theorem onehot_encodes_masks (n : ℕ) (hn : 2 ≤ n) (sample : Sample) (H W : ℕ)
    (hmask : ∀ e ∈ sample, e.1 ≠ "image" → ∃ rows, e.2 = Value.arr2 rows ∧
      rows.length = H ∧ (∀ row ∈ rows, row.length = W) ∧
      (∀ row ∈ rows, ∀ x ∈ row, ∃ v : ℕ, v ≤ n ∧ x = ((v : ℕ) : ℚ))) :
    ∃ s', oneHotCall n sample = some s' ∧
      ∀ e ∈ s', e.1 ≠ "image" → ∃ t, e.2 = Value.arr3 t ∧
        t.length = n + 1 ∧
        (∀ p ∈ t, p.length = H ∧ ∀ row ∈ p, row.length = W) ∧
        (∀ p ∈ t, ∀ row ∈ p, ∀ x ∈ row, x = 0 ∨ x = 1) ∧
        (∀ i j, i < H → j < W →
          ((List.range (n + 1)).map
            (fun c => ((t.getD c []).getD i []).getD j 0)).sum = 1) := by
  induction sample with
  | nil => exact ⟨[], rfl, by simp⟩
  | cons e es ih =>
    obtain ⟨rest, hrest, hrestp⟩ := ih (fun e' he' hk' => hmask e' (List.mem_cons_of_mem _ he') hk')
    rw [oneHotCall] at hrest
    by_cases hk : e.1 = "image"
    · refine ⟨(e.1, e.2) :: rest, ?_, ?_⟩
      · rw [oneHotCall, mapEntriesM, oneHotValue.eq_def, if_pos hk, hrest]
        rfl
      · intro e' he' hk'
        rcases List.mem_cons.mp he' with h | h
        · subst h
          exact absurd hk hk'
        · exact hrestp e' h hk'
    · obtain ⟨rows, hv, hH, hW, hvals⟩ := hmask e (List.mem_cons_self _ _) hk
      obtain ⟨t, ht, htprop⟩ := oneHotValue_mask n hn e.1 hk rows H W hH hW hvals
      refine ⟨(e.1, Value.arr3 t) :: rest, ?_, ?_⟩
      · rw [oneHotCall, mapEntriesM, hv, ht, hrest]
        rfl
      · intro e' he' hk'
        rcases List.mem_cons.mp he' with h | h
        · subst h
          exact ⟨t, rfl, htprop⟩
        · exact hrestp e' h hk'

/-- C8 (witness): a concrete 2 × 2 mask with classes 0, 1, 2 and
`n_classes = 2`. -/
theorem onehot_encodes_masks_witness :
    ∃ s', oneHotCall 2 [("mask", Value.arr2 [[0, 1], [2, 0]])] = some s' ∧
      ∀ e ∈ s', e.1 ≠ "image" → ∃ t, e.2 = Value.arr3 t ∧
        t.length = 2 + 1 ∧
        (∀ p ∈ t, p.length = 2 ∧ ∀ row ∈ p, row.length = 2) ∧
        (∀ p ∈ t, ∀ row ∈ p, ∀ x ∈ row, x = 0 ∨ x = 1) ∧
        (∀ i j, i < 2 → j < 2 →
          ((List.range (2 + 1)).map
            (fun c => ((t.getD c []).getD i []).getD j 0)).sum = 1) :=
  onehot_encodes_masks 2 (by norm_num) [("mask", Value.arr2 [[0, 1], [2, 0]])] 2 2 (by
    intro e he hk
    rw [List.mem_singleton] at he
    subst he
    refine ⟨[[0, 1], [2, 0]], rfl, rfl, ?_, ?_⟩
    · intro row hrow
      rcases List.mem_cons.mp hrow with h | h
      · subst h; rfl
      · rcases List.mem_cons.mp h with h' | h'
        · subst h'; rfl
        · cases h'
    · intro row hrow x hx
      rcases List.mem_cons.mp hrow with h | h
      · subst h
        rcases List.mem_cons.mp hx with h' | h'
        · exact ⟨0, by norm_num, by rw [h']; norm_num⟩
        · rcases List.mem_cons.mp h' with h'' | h''
          · exact ⟨1, by norm_num, by rw [h'']; norm_num⟩
          · cases h''
      · rcases List.mem_cons.mp h with h' | h'
        · subst h'
          rcases List.mem_cons.mp hx with h'' | h''
          · exact ⟨2, by norm_num, by rw [h'']; norm_num⟩
          · rcases List.mem_cons.mp h'' with h3 | h3
            · exact ⟨0, by norm_num, by rw [h3]; norm_num⟩
            · cases h3
        · cases h')

/-! ## JSON serialization: `to_json` / `read_json`
(src/src/utils/io.py, lines 13–32)

`to_json(data, path)` serializes with `json.dumps(data, cls=NumpyArrayEncoder)`
and writes the document to `path`; the encoder's `default` hook turns a numpy
array into `obj.tolist()`, a nested Python list of plain numbers, which is
then serialized as a JSON array.  `read_json(path)` parses the document back
with `json.load`.  `PyVal` models the serializable Python values (numbers,
strings, booleans, lists, dicts, numpy arrays); dict keys are strings or ints,
and `json.dumps` coerces an int key to its decimal string, as the json
module's documented key coercion does.  `JVal` models parsed JSON documents,
whose object keys are always strings and which contain no arrays-as-ndarray:
every numpy array has become a nested list. -/

inductive NDTree where
  | leaf : ℚ → NDTree
  | node : List NDTree → NDTree

inductive PyKey where
  | kStr : String → PyKey
  | kInt : ℤ → PyKey

inductive PyVal where
  | num : ℚ → PyVal
  | pstr : String → PyVal
  | pbool : Bool → PyVal
  | plist : List PyVal → PyVal
  | pdict : List (PyKey × PyVal) → PyVal
  | ndarray : NDTree → PyVal

inductive JVal where
  | num : ℚ → JVal
  | str : String → JVal
  | jbool : Bool → JVal
  | arr : List JVal → JVal
  | obj : List (String × JVal) → JVal

/-- Embeds `json.dumps`' key coercion: a string key is kept, an int key
becomes its decimal string (`str(k)`). -/
def keyStr : PyKey → String
  | .kStr s => s
  | .kInt n => toString n

mutual

/-- Embeds the serialization of `obj.tolist()` (the nested number list built
by `NumpyArrayEncoder.default`) into a JSON document. -/
def encodeNd : NDTree → JVal
  | .leaf q => .num q
  | .node l => .arr (encodeNdList l)

def encodeNdList : List NDTree → List JVal
  | [] => []
  | t :: ts => encodeNd t :: encodeNdList ts

end

mutual

/-- Embeds `json.dumps(data, cls=NumpyArrayEncoder)`: numbers, strings,
booleans and lists serialize structurally, dict keys are coerced to strings,
and a numpy array is handed to the encoder's `default` hook, which emits its
`tolist()` form. -/
def encode : PyVal → JVal
  | .num q => .num q
  | .pstr s => .str s
  | .pbool b => .jbool b
  | .plist l => .arr (encodeList l)
  | .pdict d => .obj (encodeDict d)
  | .ndarray t => encodeNd t

def encodeList : List PyVal → List JVal
  | [] => []
  | v :: vs => encode v :: encodeList vs

def encodeDict : List (PyKey × PyVal) → List (String × JVal)
  | [] => []
  | e :: es => (keyStr e.1, encode e.2) :: encodeDict es

end

mutual

/-- Embeds `json.load`: a parsed document is plain Python data — numbers,
strings, booleans, lists, and dicts with string keys. -/
def decode : JVal → PyVal
  | .num q => .num q
  | .str s => .pstr s
  | .jbool b => .pbool b
  | .arr l => .plist (decodeList l)
  | .obj o => .pdict (decodeObj o)

def decodeList : List JVal → List PyVal
  | [] => []
  | v :: vs => decode v :: decodeList vs

def decodeObj : List (String × JVal) → List (PyKey × PyVal)
  | [] => []
  | e :: es => (.kStr e.1, decode e.2) :: decodeObj es

end

mutual

/-- Embeds `obj.tolist()`: the nested plain-list form of a numpy array. -/
def ndToPy : NDTree → PyVal
  | .leaf q => .num q
  | .node l => .plist (ndToPyList l)

def ndToPyList : List NDTree → List PyVal
  | [] => []
  | t :: ts => ndToPy t :: ndToPyList ts

end

mutual

/-- The value obtained from a Python value by replacing every numpy array
with its nested-list form — the reference point of the round-trip. -/
def strip : PyVal → PyVal
  | .num q => .num q
  | .pstr s => .pstr s
  | .pbool b => .pbool b
  | .plist l => .plist (stripList l)
  | .pdict d => .pdict (stripDict d)
  | .ndarray t => ndToPy t

def stripList : List PyVal → List PyVal
  | [] => []
  | v :: vs => strip v :: stripList vs

def stripDict : List (PyKey × PyVal) → List (PyKey × PyVal)
  | [] => []
  | e :: es => (e.1, strip e.2) :: stripDict es

end

mutual

/-- Every dict key in the value is a string. -/
def allStrKeys : PyVal → Bool
  | .num _ => true
  | .pstr _ => true
  | .pbool _ => true
  | .plist l => allStrKeysList l
  | .pdict d => allStrKeysDict d
  | .ndarray _ => true

def allStrKeysList : List PyVal → Bool
  | [] => true
  | v :: vs => allStrKeys v && allStrKeysList vs

def allStrKeysDict : List (PyKey × PyVal) → Bool
  | [] => true
  | e :: es =>
    (match e.1 with | .kStr _ => true | .kInt _ => false) && allStrKeys e.2 && allStrKeysDict es

end

mutual

/-- The value contains no numpy array. -/
def arrayFree : PyVal → Bool
  | .num _ => true
  | .pstr _ => true
  | .pbool _ => true
  | .plist l => arrayFreeList l
  | .pdict d => arrayFreeDict d
  | .ndarray _ => false

def arrayFreeList : List PyVal → Bool
  | [] => true
  | v :: vs => arrayFree v && arrayFreeList vs

def arrayFreeDict : List (PyKey × PyVal) → Bool
  | [] => true
  | e :: es => arrayFree e.2 && arrayFreeDict es

end

/-- Embeds the persistence step of `main` (run_inference.py lines 110–114):
one JSON document per split, the test split at `output_file + '_test.json'`
and the calibration split at `output_file + '_cal.json'`, each serialized by
`to_json`. -/
def mainOutputs (outFile : String) (predsTest predsCal : PyVal) : List (String × JVal) :=
  [(outFile ++ "_test.json", encode predsTest), (outFile ++ "_cal.json", encode predsCal)]

mutual

theorem encode_ndToPy (t : NDTree) : encode (ndToPy t) = encodeNd t := by
  cases t with
  | leaf q => rfl
  | node l => simp [ndToPy, encodeNd, encode, encode_ndToPyList l]

theorem encode_ndToPyList (l : List NDTree) : encodeList (ndToPyList l) = encodeNdList l := by
  cases l with
  | nil => rfl
  | cons t ts =>
    simp [ndToPyList, encodeNdList, encodeList, encode_ndToPy t, encode_ndToPyList ts]

end

mutual

theorem arrayFree_ndToPy (t : NDTree) : arrayFree (ndToPy t) = true := by
  cases t with
  | leaf q => rfl
  | node l => simp [ndToPy, arrayFree, arrayFree_ndToPyList l]

theorem arrayFree_ndToPyList (l : List NDTree) : arrayFreeList (ndToPyList l) = true := by
  cases l with
  | nil => rfl
  | cons t ts =>
    simp [ndToPyList, arrayFreeList, arrayFree_ndToPy t, arrayFree_ndToPyList ts]

end

mutual

theorem encode_strip (v : PyVal) : encode (strip v) = encode v ∧ arrayFree (strip v) = true := by
  cases v with
  | num q => exact ⟨rfl, rfl⟩
  | pstr s => exact ⟨rfl, rfl⟩
  | pbool b => exact ⟨rfl, rfl⟩
  | plist l =>
    obtain ⟨h1, h2⟩ := encode_stripList l
    exact ⟨by simp [strip, encode, h1], by simp [strip, arrayFree, h2]⟩
  | pdict d =>
    obtain ⟨h1, h2⟩ := encode_stripDict d
    exact ⟨by simp [strip, encode, h1], by simp [strip, arrayFree, h2]⟩
  | ndarray t =>
    exact ⟨by simp [strip, encode, encode_ndToPy t], by simp [strip, arrayFree_ndToPy t]⟩

theorem encode_stripList (l : List PyVal) :
    encodeList (stripList l) = encodeList l ∧ arrayFreeList (stripList l) = true := by
  cases l with
  | nil => exact ⟨rfl, rfl⟩
  | cons v vs =>
    obtain ⟨h1, h2⟩ := encode_strip v
    obtain ⟨h3, h4⟩ := encode_stripList vs
    exact ⟨by simp [stripList, encodeList, h1, h3], by simp [stripList, arrayFreeList, h2, h4]⟩

theorem encode_stripDict (d : List (PyKey × PyVal)) :
    encodeDict (stripDict d) = encodeDict d ∧ arrayFreeDict (stripDict d) = true := by
  cases d with
  | nil => exact ⟨rfl, rfl⟩
  | cons e es =>
    obtain ⟨h1, h2⟩ := encode_strip e.2
    obtain ⟨h3, h4⟩ := encode_stripDict es
    exact ⟨by simp [stripDict, encodeDict, h1, h3], by simp [stripDict, arrayFreeDict, h2, h4]⟩

end

lemma append_test_ne_append_cal (outFile : String) :
    outFile ++ "_test.json" ≠ outFile ++ "_cal.json" := by
  intro h
  have hd := congrArg String.data h
  rw [String.data_append, String.data_append] at hd
  have h2 := List.append_cancel_left hd
  exact absurd (congrArg String.mk h2) (by decide)

/-- C5: each invocation persists one JSON document per split — the test split
at `output_file + '_test.json'` and the calibration split at the distinct path
`output_file + '_cal.json'` — and `to_json`'s serialization converts every
numpy array value into its plain nested-list-of-numbers form: encoding a value
equals encoding its array-stripped form, and the stripped form contains no
numpy array. -/
theorem persisted_outputs_and_array_conversion (outFile : String)
    (predsTest predsCal : PyVal) :
    (mainOutputs outFile predsTest predsCal).map Prod.fst =
        [outFile ++ "_test.json", outFile ++ "_cal.json"] ∧
    outFile ++ "_test.json" ≠ outFile ++ "_cal.json" ∧
    (∀ v : PyVal, encode (strip v) = encode v ∧ arrayFree (strip v) = true) :=
  ⟨rfl, append_test_ne_append_cal outFile, fun v => encode_strip v⟩

/-- C5 (witness): concrete instantiation at the output path "out" with
number-valued prediction records. -/
theorem persisted_outputs_and_array_conversion_witness :
    (mainOutputs "out" (PyVal.num 1) (PyVal.num 0)).map Prod.fst =
        ["out" ++ "_test.json", "out" ++ "_cal.json"] ∧
    "out" ++ "_test.json" ≠ "out" ++ "_cal.json" ∧
    (∀ v : PyVal, encode (strip v) = encode v ∧ arrayFree (strip v) = true) :=
  persisted_outputs_and_array_conversion "out" (PyVal.num 1) (PyVal.num 0)

mutual

theorem decode_encodeNd (t : NDTree) : decode (encodeNd t) = ndToPy t := by
  cases t with
  | leaf q => rfl
  | node l => simp [encodeNd, ndToPy, decode, decode_encodeNdList l]

theorem decode_encodeNdList (l : List NDTree) : decodeList (encodeNdList l) = ndToPyList l := by
  cases l with
  | nil => rfl
  | cons t ts =>
    simp [encodeNdList, ndToPyList, decodeList, decode_encodeNd t, decode_encodeNdList ts]

end

mutual

theorem decode_encode (v : PyVal) (h : allStrKeys v = true) : decode (encode v) = strip v := by
  cases v with
  | num q => rfl
  | pstr s => rfl
  | pbool b => rfl
  | plist l =>
    simp only [encode, decode, strip]
    rw [decode_encodeList l (by simpa [allStrKeys] using h)]
  | pdict d =>
    simp only [encode, decode, strip]
    rw [decode_encodeDict d (by simpa [allStrKeys] using h)]
  | ndarray t => simp [encode, strip, decode_encodeNd t]

theorem decode_encodeList (l : List PyVal) (h : allStrKeysList l = true) :
    decodeList (encodeList l) = stripList l := by
  cases l with
  | nil => rfl
  | cons v vs =>
    simp only [allStrKeysList, Bool.and_eq_true] at h
    simp only [encodeList, decodeList, stripList]
    rw [decode_encode v h.1, decode_encodeList vs h.2]

theorem decode_encodeDict (d : List (PyKey × PyVal)) (h : allStrKeysDict d = true) :
    decodeObj (encodeDict d) = stripDict d := by
  cases d with
  | nil => rfl
  | cons e es =>
    simp only [allStrKeysDict, Bool.and_eq_true] at h
    obtain ⟨⟨hk, hv⟩, hes⟩ := h
    simp only [encodeDict, decodeObj, stripDict]
    rw [decode_encode e.2 hv, decode_encodeDict es hes]
    cases hkey : e.1 with
    | kStr s => simp [keyStr]
    | kInt n => rw [hkey] at hk; simp at hk

end

/-- C9 (counterexample): a dict with the int key 1 is JSON-serializable, but
`json.dumps` coerces the key to the string "1", so reading the file back
yields a different value than the original with its arrays stripped — the
round trip fails on non-string dict keys. -/
theorem json_roundtrip_counterexample :
    decode (encode (PyVal.pdict [(PyKey.kInt 1, PyVal.num 2)])) ≠
      strip (PyVal.pdict [(PyKey.kInt 1, PyVal.num 2)]) := by
  intro h
  have h1 : decode (encode (PyVal.pdict [(PyKey.kInt 1, PyVal.num 2)])) =
      PyVal.pdict [(PyKey.kStr "1", PyVal.num 2)] := by
    simp only [encode, encodeDict, encodeList, keyStr, decode, decodeObj, decodeList]
    rw [show toString (1 : ℤ) = "1" from rfl]
  have h2 : strip (PyVal.pdict [(PyKey.kInt 1, PyVal.num 2)]) =
      PyVal.pdict [(PyKey.kInt 1, PyVal.num 2)] := by
    simp [strip, stripDict, stripList]
  rw [h1, h2] at h
  simp at h

/-- C9 (amended): for every value composed of JSON-serializable Python objects
and numpy arrays in which every dict key is a string, writing with `to_json`
and reading back with `read_json` yields exactly the original value with every
numpy array replaced by its nested-list form; with a non-string (int) dict
key the round trip instead returns the key coerced to its decimal string. -/
theorem json_roundtrip_modulo_tolist (v : PyVal) (h : allStrKeys v = true) :
    decode (encode v) = strip v :=
  decode_encode v h

/-- C9 (witness): a record-like dict with string keys, a number list and a
numpy array round-trips to its array-stripped form. -/
theorem json_roundtrip_modulo_tolist_witness :
    decode (encode (PyVal.pdict [(PyKey.kStr "Dice", PyVal.ndarray (NDTree.leaf (1/2))),
        (PyKey.kStr "id", PyVal.pstr "s1")])) =
      strip (PyVal.pdict [(PyKey.kStr "Dice", PyVal.ndarray (NDTree.leaf (1/2))),
        (PyKey.kStr "id", PyVal.pstr "s1")]) :=
  json_roundtrip_modulo_tolist _ (by
    simp [allStrKeys, allStrKeysDict, allStrKeysList])

/-! ## CLI startup and global seeding: `run_inference.main`
(src/scripts/run_inference.py) -/

/-- The fixed supported dataset list (run_inference.py line 37). -/
def supportedDatasets : List String :=
  ["hc18", "psfhs", "scd", "jsrt", "ph2", "isic 2018", "3d-ircadb/liver", "nucls",
    "wbc/cv", "wbc/jtsc"]

/-- Modelled from the spec: the classifier families recognized by `RCA`'s
string-keyed dispatch.  `src/rca.py` is not among the provided sources; the
spec's §9 describes one concrete variant per supported model family
(UniverSeg, SAM 2, Atlas — the names `main` branches on), selected once at
configuration time, with `UnrecognizedClassifier` fatal at startup before any
expensive model loading (§7). -/
def recognizedClassifiers : List String := ["universeg", "sam2", "atlas"]

inductive StartupError where
  | unrecognizedDataset : String → StartupError
  | unrecognizedClassifier : String → StartupError

inductive Event where
  | loadDatasets : Event
  | loadModel : String → Event
  | runEvaluation : Event

/-- Embeds the startup sequence of `main`: the dataset check
(run_inference.py lines 36–39, `raise ValueError` on an unsupported name)
runs before dataset construction (lines 79–89), which runs before `RCA`
construction (line 108) — whose classifier dispatch is modelled from the
spec — and only a successful dispatch loads model weights and evaluates.
The trace records which expensive phases were entered. -/
def runMainStartup (dataset classifier : String) :
    List Event × Except StartupError Unit :=
  if dataset ∉ supportedDatasets then
    ([], .error (.unrecognizedDataset dataset))
  else if classifier ∉ recognizedClassifiers then
    ([.loadDatasets], .error (.unrecognizedClassifier classifier))
  else
    ([.loadDatasets, .loadModel classifier, .runEvaluation], .ok ())

/-- C2: an unrecognized dataset name and an unrecognized classifier name are
both fatal at startup: the run stops with the corresponding error and the
trace contains no model-loading event — the failure surfaces before any
expensive model loading. -/
theorem startup_rejects_unknown_names (dataset classifier : String) :
    (dataset ∉ supportedDatasets →
      runMainStartup dataset classifier =
          ([], .error (.unrecognizedDataset dataset)) ∧
        ∀ m, Event.loadModel m ∉ (runMainStartup dataset classifier).1) ∧
    (dataset ∈ supportedDatasets → classifier ∉ recognizedClassifiers →
      runMainStartup dataset classifier =
          ([.loadDatasets], .error (.unrecognizedClassifier classifier)) ∧
        ∀ m, Event.loadModel m ∉ (runMainStartup dataset classifier).1) := by
  constructor
  · intro hd
    rw [runMainStartup, if_pos hd]
    exact ⟨rfl, by simp⟩
  · intro hd hc
    rw [runMainStartup, if_neg (not_not_intro hd), if_pos hc]
    refine ⟨rfl, ?_⟩
    intro m
    simp

/-- C2 (witness): the unsupported dataset "jsrt2" fails with
`UnrecognizedDataset`, and the supported dataset "hc18" with the unrecognized
classifier "resnet" fails with `UnrecognizedClassifier`; neither trace loads
a model. -/
theorem startup_rejects_unknown_names_witness :
    (runMainStartup "jsrt2" "sam2" = ([], .error (.unrecognizedDataset "jsrt2")) ∧
      ∀ m, Event.loadModel m ∉ (runMainStartup "jsrt2" "sam2").1) ∧
    (runMainStartup "hc18" "resnet" =
        ([.loadDatasets], .error (.unrecognizedClassifier "resnet")) ∧
      ∀ m, Event.loadModel m ∉ (runMainStartup "hc18" "resnet").1) :=
  ⟨(startup_rejects_unknown_names "jsrt2" "sam2").1 (by decide),
    (startup_rejects_unknown_names "hc18" "resnet").2 (by decide) (by decide)⟩

/-- Modelled from the spec: the numpy global pseudo-random generator as a
deterministic state machine; `np.random.seed(k)` replaces whatever state the
process had with the state determined by `k` alone. -/
structure RngState where
  state : ℕ

/-- Embeds `np.random.seed(k)`. -/
def npSeed (k : ℕ) : RngState := ⟨k⟩

/-- Modelled from the spec: one deterministic PRNG draw (a linear
congruential step standing in for numpy's Mersenne twister). -/
def rngNext (g : RngState) : ℕ × RngState :=
  let s := (g.state * 1103515245 + 12345) % 2 ^ 31
  (s, ⟨s⟩)

/-- Modelled from the spec: `sample_N(scores, n)`, a fixed-size uniform
random subsample of indices drawn from the global PRNG (`src/metrics.py` is
not among the provided sources). -/
def sample_N (g : RngState) (scores : List ℚ) (n : ℕ) : List ℕ × RngState :=
  match n with
  | 0 => ([], g)
  | m + 1 =>
    let (r, g') := rngNext g
    let (rest, g'') := sample_N g' scores m
    (r % scores.length :: rest, g'')

/-- Modelled from the spec: `sample_balanced(scores, n_buckets, min_val)`,
stratified sampling drawing one PRNG-chosen index per score bucket among the
indices whose score is at least `min_val`. -/
def sample_balanced (g : RngState) (scores : List ℚ) (nBuckets : ℕ) (minVal : ℚ) :
    List ℕ × RngState :=
  match nBuckets with
  | 0 => ([], g)
  | b + 1 =>
    let (r, g') := rngNext g
    let candidates := (List.range scores.length).filter
      (fun i => decide (minVal ≤ scores.getD i 0))
    let pick := candidates.getD (r % (max candidates.length 1)) 0
    let (rest, g'') := sample_balanced g' scores b minVal
    (pick :: rest, g'')

/-- Embeds the sampling-relevant behavior of a `main` run: line 24 executes
`np.random.seed(1)` as the first statement, discarding whatever global PRNG
state the process started with, and every subsequent `sample_N` /
`sample_balanced` draw follows deterministically from the reseeded state. -/
def mainSampling (ambient : RngState) (scores : List ℚ) (n nBuckets : ℕ) (minVal : ℚ) :
    List ℕ × List ℕ :=
  let _ := ambient
  let g := npSeed 1
  let (idx₁, g₁) := sample_N g scores n
  let (idx₂, _) := sample_balanced g₁ scores nBuckets minVal
  (idx₁, idx₂)

/-- C10: `main` seeds the global numpy generator with the constant 1 before
any sampling, so the subsampling draws are deterministic across runs: two
executions with identical arguments and inputs draw identical samples, no
matter what PRNG state each process started from. -/
theorem main_sampling_deterministic (a₁ a₂ : RngState) (scores : List ℚ)
    (n nBuckets : ℕ) (minVal : ℚ) :
    mainSampling a₁ scores n nBuckets minVal = mainSampling a₂ scores n nBuckets minVal :=
  rfl

/-- C10 (witness): two runs that start from different ambient PRNG states
draw the same samples. -/
theorem main_sampling_deterministic_witness :
    mainSampling ⟨7⟩ [1/2, 1/4] 2 2 0 = mainSampling ⟨99⟩ [1/2, 1/4] 2 2 0 :=
  main_sampling_deterministic ⟨7⟩ ⟨99⟩ [1/2, 1/4] 2 2 0

end RCA
